import Mathlib

/-!
Verification development for the choose_next program: a shallow embedding of
its path handling, logfile persistence and selection algorithm, with theorems
about the selection and persistence behaviour.

Conventions of the embedding:
* Paths, logfile entries and raw file contents are character lists (`Path`).
* The POSIX path functions used by the program (`os.path.normpath`,
  `os.path.join`, `os.path.relpath`) are modelled for the inputs the program
  produces (the scanned root is an absolute real path, so `abspath` is
  `normpath` on it).
* Python `float` values appearing in sort keys are modelled exactly as
  rationals; `locale.strxfrm` is modelled as the identity (C locale), and
  string comparison is code-point lexicographic.
* Reading a text file uses universal newlines (`\r\n` and `\r` become `\n`),
  as Python's text mode does; writing uses the POSIX line separator `\n`.
* Python sets of paths are modelled by deduplicated lists; membership is the
  only set operation the program uses besides enumeration, and enumeration
  order is always followed by a sort in the program.
-/

deriving instance DecidableEq for Except

namespace ChooseNext

/-- A filesystem path, logfile entry, or raw file content, as its character
sequence. -/
abbrev Path := List Char

/-- Character list of a string literal, for readable concrete inputs. -/
def str (s : String) : Path := s.toList

/-- Split a character list on a separator character, keeping empty pieces,
mirroring Python `str.split` with an explicit separator (so the result is
always nonempty). -/
def splitOnChar (sepc : Char) : Path → List Path
  | [] => [[]]
  | c :: rest =>
    let r := splitOnChar sepc rest
    if c = sepc then [] :: r
    else
      match r with
      | [] => [[c]]
      | piece :: pieces => (c :: piece) :: pieces

/-- Join path components with the separator `/`, mirroring `'/'.join`. -/
def joinComps (comps : List Path) : Path := (comps.intersperse ['/']).flatten

/-- Number of leading slashes POSIX `normpath` preserves (one, or exactly
two). -/
def initialSlashes (p : Path) : Nat :=
  if p.take 1 = ['/'] then
    if p.take 2 = ['/', '/'] ∧ ¬p.take 3 = ['/', '/', '/'] then 2 else 1
  else 0

/-- Component processing loop of POSIX `os.path.normpath`: drop empty and `.`
components, resolve `..` against preceding components where allowed. -/
def normComps (slashes : Nat) (comps : List Path) : List Path :=
  comps.foldl
    (fun newComps comp =>
      if comp = [] ∨ comp = ['.'] then newComps
      else if comp ≠ ['.', '.'] ∨ (slashes = 0 ∧ newComps = []) ∨
          newComps.getLast? = some ['.', '.'] then
        newComps ++ [comp]
      else if newComps ≠ [] then newComps.dropLast
      else newComps)
    []

/-- POSIX `os.path.normpath`. -/
def normpath (p : Path) : Path :=
  if p = [] then ['.']
  else
    let slashes := initialSlashes p
    let body := joinComps (normComps slashes (splitOnChar '/' p))
    let full := List.replicate slashes '/' ++ body
    if full = [] then ['.'] else full

/-- POSIX `os.path.isabs`. -/
def isabs (p : Path) : Bool := p.take 1 = ['/']

/-- POSIX `os.path.join` for two arguments, as used by the program. -/
def pyJoin (a b : Path) : Path :=
  if isabs b then b
  else if a = [] ∨ a.getLast? = some '/' then a ++ b
  else a ++ '/' :: b

/-- Nonempty components of a path, as POSIX `relpath` computes them. -/
def splitNonempty (p : Path) : List Path := (splitOnChar '/' p).filter (fun x => x ≠ [])

/-- Length of the common component prefix of two component lists. -/
def commonPrefixLen : List Path → List Path → Nat
  | a :: as, b :: bs => if a = b then commonPrefixLen as bs + 1 else 0
  | _, _ => 0

/-- POSIX `os.path.relpath` for absolute arguments (both arguments the
program passes are absolute, so `abspath` reduces to `normpath`). -/
def relpath (p start : Path) : Path :=
  let pList := splitNonempty (normpath p)
  let sList := splitNonempty (normpath start)
  let i := commonPrefixLen sList pList
  let relList := List.replicate (sList.length - i) ['.', '.'] ++ pList.drop i
  if relList = [] then ['.'] else joinComps relList

/-- `make_relpath` from the source: relative path to the start directory,
error when the result starts with `../`. -/
def make_relpath (path start : Path) : Except String Path :=
  let rel := relpath path start
  if (['.', '.', '/']).isPrefixOf rel then
    Except.error "error, path leads outside given directory"
  else Except.ok rel

/-- `logfile_entry_to_path` from the source: absolute entries are taken as
they are, relative entries are joined to the directory, then both are made
relative to it. -/
def logfile_entry_to_path (entry dirpath : Path) : Except String Path :=
  let path := if isabs entry then entry else pyJoin dirpath entry
  make_relpath path dirpath

/-- Universal-newline translation performed by Python's text-mode reading:
`\r\n` and a lone `\r` both become `\n`. -/
def translateNewlines : Path → Path
  | [] => []
  | [c] => if c = '\r' then ['\n'] else [c]
  | c :: d :: rest =>
    if c = '\r' then
      if d = '\n' then '\n' :: translateNewlines rest
      else '\n' :: translateNewlines (d :: rest)
    else c :: translateNewlines (d :: rest)

/-- Helper for `splitLines`, accumulating the current line reversed. -/
def splitLinesAux (cur : Path) : Path → List Path
  | [] => if cur = [] then [] else [cur.reverse]
  | c :: rest =>
    if c = '\n' then (cur.reverse ++ ['\n']) :: splitLinesAux [] rest
    else splitLinesAux (c :: cur) rest

/-- Python text-mode line iteration over (already translated) content: lines
keep their trailing `\n`; a final piece without `\n` is kept; an empty file
yields no lines. -/
def splitLines (s : Path) : List Path := splitLinesAux [] s

/-- Python `line.rstrip('\r\n')`: drop all trailing carriage returns and
newlines. -/
def rstripCRLF (s : Path) : Path :=
  (s.reverse.dropWhile (fun c => c == '\r' || c == '\n')).reverse

/-- Convert the stripped lines to logfile entries, propagating the first
error, as the list comprehension in `read_logfile` does. -/
def entriesFromLines (dirpath : Path) : List Path → Except String (List Path)
  | [] => Except.ok []
  | line :: rest => do
    let e ← logfile_entry_to_path (rstripCRLF line) dirpath
    let es ← entriesFromLines dirpath rest
    Except.ok (e :: es)

/-- `read_logfile` from the source, on raw file content: translate newlines,
split into lines, strip `\r\n`, convert each entry relative to the
directory. A missing file is modelled as empty content. -/
def read_logfile (content dirpath : Path) : Except String (List Path) :=
  entriesFromLines dirpath (splitLines (translateNewlines content))

/-- `write_logfile` from the source: each entry followed by the POSIX line
separator. -/
def write_logfile (entries : List Path) : Path :=
  (entries.map (fun e => e ++ ['\n'])).flatten

/-- `logfile_append` in append mode: the raw old content followed by the new
record. Truncating mode corresponds to empty old content. -/
def logfile_append (content entry : Path) : Path := content ++ entry ++ ['\n']

/-- `logfile_prepend` from the source: rewrite the whole file with the new
entry first. -/
def logfile_prepend (entry : Path) (old_entries : List Path) : Path :=
  write_logfile (entry :: old_entries)

/-- ASCII whitespace matched by the regex class used in `NUMKEY_REGEX`
(Python `\s`; non-ASCII whitespace is not modelled). -/
def isPySpace (c : Char) : Bool :=
  c == ' ' || c == '\t' || c == '\n' || c == '\r' || c == '\x0b' || c == '\x0c'

/-- ASCII digit test, the regex class `[0-9]`. -/
def isDigitChar (c : Char) : Bool := '0' ≤ c && c ≤ '9'

/-- Value of a digit run, most significant first. -/
def digitsToNat (ds : Path) : Nat := ds.foldl (fun n d => 10 * n + (d.toNat - 48)) 0

/-- Exact decimal value `mant / 10 ^ fexp`, the value of a matched numeric
prefix (CPython converts it to a double; the model keeps it exact). -/
structure DecVal where
  mant : Int
  fexp : Nat
deriving DecidableEq

/-- Powers of ten, as integers. -/
def pow10 : Nat → Int
  | 0 => 1
  | k + 1 => 10 * pow10 k

/-- Numeric comparison of two decimal values, by cross multiplication. -/
def valLt (x y : DecVal) : Bool := decide (x.mant * pow10 y.fexp < y.mant * pow10 x.fexp)

/-- Numeric equality of two decimal values, by cross multiplication. -/
def valEq (x y : DecVal) : Bool := decide (x.mant * pow10 y.fexp = y.mant * pow10 x.fexp)

/-- One segment's sort key: the parsed numeric prefix and the collated
remainder text. -/
structure NumKey where
  num : DecVal
  text : Path
deriving DecidableEq

/-- Matching of `NUMKEY_REGEX` = `(\s*[+-]?[0-9]+\.?[0-9]*\s*)(.*)` against a
segment: `none` when the segment has no leading (optionally signed) number,
otherwise the numeric value of group 1 and group 2, the remainder up to an
embedded `\n` (`.` does not match a newline). -/
def numkeyMatch (s : Path) : Option (DecVal × Path) :=
  let rest0 := s.dropWhile isPySpace
  let neg := rest0.take 1 = ['-']
  let rest1 := if rest0.take 1 = ['-'] ∨ rest0.take 1 = ['+'] then rest0.drop 1 else rest0
  let intDigits := rest1.takeWhile isDigitChar
  if intDigits = [] then none
  else
    let rest2 := rest1.dropWhile isDigitChar
    let rest3 := if rest2.take 1 = ['.'] then rest2.drop 1 else rest2
    let fracDigits := rest3.takeWhile isDigitChar
    let rest4 := rest3.dropWhile isDigitChar
    let rest5 := rest4.dropWhile isPySpace
    let mantNat := digitsToNat (intDigits ++ fracDigits)
    let mant : Int := if neg then -(mantNat : Int) else (mantNat : Int)
    some (⟨mant, fracDigits.length⟩, rest5.takeWhile (fun c => c != '\n'))

/-- `locale.strxfrm`, modelled as the identity (C locale). -/
def strxfrm (s : Path) : Path := s

/-- `numkey` from the source: `(numeric_value, collated_remainder)` when the
numeric prefix matches, `(0.0, collated_full_segment)` otherwise. -/
def numkey (s : Path) : NumKey :=
  match numkeyMatch s with
  | some (v, remainder) => ⟨v, strxfrm remainder⟩
  | none => ⟨⟨0, 0⟩, strxfrm s⟩

/-- `path_split_all` from the source: normalize, then split on the
separator. -/
def path_split_all (p : Path) : List Path := splitOnChar '/' (normpath p)

/-- `numkey_path` from the source: per-segment keys, left to right. -/
def numkey_path (p : Path) : List NumKey := (path_split_all p).map numkey

/-- Code-point lexicographic order on character lists, Python `str` order
(under the identity collation). -/
def charsLt : Path → Path → Bool
  | _, [] => false
  | [], _ :: _ => true
  | a :: as, b :: bs => if a = b then charsLt as bs else decide (a < b)

/-- Python comparison of two `(float, str)` key pairs: numeric value first,
then the remainder text. -/
def numkeyLt (x y : NumKey) : Bool :=
  valLt x.num y.num || (valEq x.num y.num && charsLt x.text y.text)

/-- Python equality of two `(float, str)` key pairs (numeric equality on the
number). -/
def numkeyEq (x y : NumKey) : Bool := valEq x.num y.num && decide (x.text = y.text)

/-- Python comparison of two key tuples: first differing component decides,
a strict prefix is smaller. -/
def keyLt : List NumKey → List NumKey → Bool
  | _, [] => false
  | [], _ :: _ => true
  | x :: xs, y :: ys => if numkeyLt x y then true else if numkeyEq x y then keyLt xs ys else false

/-- Insertion of a path into a list sorted by `numkey_path` keys, placing it
before the first strictly greater element. -/
def insertByKey (a : Path) : List Path → List Path
  | [] => [a]
  | b :: bs =>
    if keyLt (numkey_path a) (numkey_path b) then a :: b :: bs
    else b :: insertByKey a bs

/-- The program's `sort(key=numkey_path)` on an enumerated set, modelled as
insertion sort by the key order (the enumerated candidates come from a set,
so the order among equal keys carries no information). -/
def pathSort (l : List Path) : List Path := l.foldr insertByKey []

/-- The history actually used for selection: empty in no-read mode. -/
def played_list (logList : List Path) (no_read : Bool) : List Path :=
  if no_read then [] else logList

/-- Start index of the cyclic scan: one past the last played file in the
sorted candidate list when that file is still among the candidates, else 0. -/
def seqIndex (playedL avail sortedAvail : List Path) : Nat :=
  match playedL.getLast? with
  | none => 0
  | some last_file =>
    if avail.contains last_file then sortedAvail.indexOf last_file + 1 else 0

/-- Selection part of `choose_next_file` from the source. Inputs: the parsed
logfile entries, the enumerated candidate paths (deduplicated below, as the
source builds a set), mode flags, an oracle for `random.choice`, and the
explicit file for this round, if any. Returns the chosen entry and the
`rewrite_logfile` wrap flag. The cyclic scan
`next(filter(..., islice(cycle(available_list), index, None)))` is the first
match in the rotated sorted list; when no entry matches the Python program
would cycle forever, which is modelled as an (unreachable) error. -/
def choose_next_file_select (logList available : List Path)
    (no_read last_flag random_flag : Bool) (randomPick : List Path → Path)
    (next_file0 : Option Path) : Except String (Path × Bool) :=
  let avail := available.dedup
  let playedL := played_list logList no_read
  let available_list := pathSort avail
  let remaining0 := avail.filter (fun p => !(playedL.contains p))
  let rewrite_logfile := remaining0.isEmpty
  let remaining := if rewrite_logfile then avail else remaining0
  if remaining.isEmpty then
    Except.error "error, no files available"
  else
    match next_file0 with
    | some f => Except.ok (f, rewrite_logfile)
    | none =>
      if last_flag && !playedL.isEmpty then
        Except.ok (playedL.getLastD [], rewrite_logfile)
      else if random_flag then
        Except.ok (randomPick (pathSort remaining), rewrite_logfile)
      else
        match (available_list.rotate (seqIndex playedL avail available_list)).find?
            (fun p => remaining.contains p) with
        | some f => Except.ok (f, rewrite_logfile)
        | none => Except.error "unreachable, the cyclic scan found no entry"

/-- Persistence part of `choose_next_file` (lines 218 to 227 of the source),
producing the new raw file content, for a successful round (`retval = 0`). -/
def choose_next_file_write (logList : List Path) (oldContent next_file : Path)
    (rewrite_logfile no_write prepend : Bool) : Path :=
  if no_write then oldContent
  else if !(logList.contains next_file) || rewrite_logfile then
    if prepend then logfile_prepend next_file (if rewrite_logfile then [] else logList)
    else if rewrite_logfile then logfile_append [] next_file
    else logfile_append oldContent next_file
  else oldContent

/-- One full round of `choose_next_file` over the raw logfile content: read
the logfile, select, persist. Returns the chosen entry, the wrap flag and
the new raw content. -/
def choose_next_round (content dirpath : Path) (available : List Path)
    (no_read last_flag random_flag no_write prepend : Bool)
    (randomPick : List Path → Path) (next_file0 : Option Path) :
    Except String (Path × Bool × Path) := do
  let logList ← read_logfile content dirpath
  let sel ← choose_next_file_select logList available no_read last_flag random_flag
    randomPick next_file0
  Except.ok (sel.1, sel.2, choose_next_file_write logList content sel.1 sel.2 no_write prepend)

/-- `modify_logfile` from the source, at the entry level: no-op on an empty
log, else drop the first and/or the last record. `none` models the uncaught
IndexError of `del entries[-1]` on an emptied list. -/
def modify_logfile (entries : List Path) (clear_first clear_last : Bool) :
    Option (List Path) :=
  if entries.isEmpty then some entries
  else
    let afterFirst := if clear_first then entries.tail else entries
    if clear_last then
      if afterFirst.isEmpty then none else some afterFirst.dropLast
    else some afterFirst

/-- The round loop of `choose_next` from the source, abstracted over the
per-round work (each round is assumed to succeed): returns the number of
rounds performed before the loop breaks, or `none` when it does not break
within `fuel` rounds. The loop body increments `i` and breaks when
`number >= 0 and i >= number`. -/
def choose_next_loop : Nat → Int → Nat → Option Nat
  | 0, _, _ => none
  | fuel + 1, number, i =>
    let i' := i + 1
    if 0 ≤ number ∧ (i' : Int) ≥ number then some i'
    else choose_next_loop fuel number i'

/-- Adjustment of `args.number` in `main_throws`: a requested count between 0
and the number of explicit file arguments is raised to that number. -/
def effective_number (number : Int) (nfiles : Nat) : Int :=
  if 0 ≤ number ∧ number ≤ (nfiles : Int) then (nfiles : Int) else number

/-- Spec-side remaining set: candidates minus the played set, resetting to
the full candidate set when that difference is empty. -/
def specRemaining (candidates played : List Path) : List Path :=
  let diff := candidates.filter (fun p => !(played.contains p))
  if diff.isEmpty then candidates else diff

/-- Spec-side start position: just after the last history entry in sorted
order, 0 when the history is empty or its last entry is no longer among the
candidates. -/
def specStart (sortedCandidates history : List Path) : Nat :=
  match history.getLast? with
  | none => 0
  | some lastf =>
    if sortedCandidates.contains lastf then sortedCandidates.indexOf lastf + 1 else 0

/-- Spec-side sequential selection, written as the spec describes it: sort
the candidates with the numeric-aware key, then scan indices
`(start + j) % n` for `j = 0, 1, ...` and return the first entry in the
remaining set. -/
def specSequentialChoice (candidates history : List Path) : Option Path :=
  let cset := candidates.dedup
  let sorted := pathSort cset
  let rem := specRemaining cset history
  let n := sorted.length
  (List.range n).findSome? (fun j =>
    (sorted.get? ((specStart sorted history + j) % n)).bind
      (fun p => if rem.contains p then some p else none))

theorem choose_next_loop_neg : ∀ (fuel : Nat) (n : Int) (i : Nat), n < 0 →
    choose_next_loop fuel n i = none := by
  intro fuel
  induction fuel with
  | zero => intro n i _; rfl
  | succ f ih =>
    intro n i hn
    show choose_next_loop (f + 1) n i = none
    simp only [choose_next_loop]
    rw [if_neg (fun h => absurd h.1 (by omega))]
    exact ih n (i + 1) hn

theorem choose_next_loop_pos : ∀ (fuel : Nat) (n : Int) (i : Nat), 0 ≤ n → (i : Int) < n →
    n ≤ (i : Int) + (fuel : Int) → choose_next_loop fuel n i = some n.toNat := by
  intro fuel
  induction fuel with
  | zero => intro n i h0 hi hle; omega
  | succ f ih =>
    intro n i h0 hi hle
    show choose_next_loop (f + 1) n i = some n.toNat
    simp only [choose_next_loop]
    by_cases hbreak : (0 ≤ n ∧ ((i + 1 : Nat) : Int) ≥ n)
    · rw [if_pos hbreak]
      have : (i + 1 : Nat) = n.toNat := by omega
      rw [this]
    · rw [if_neg hbreak]
      push_neg at hbreak
      exact ih n (i + 1) h0 (by omega) (by push_cast; push_cast at hle; omega)

/-- C3: the program accepts a logfile or explicit-file entry that resolves
exactly to the parent directory of the root: `logfile_entry_to_path` returns
the relative path `..` without raising the path-escape error, although the
resolved path (here `/a`) lies outside the root `/a/b`. Entries resolving
elsewhere outside the root are rejected, because only a relative form
starting with `../` triggers the error. -/
theorem parent_escape_not_rejected :
    logfile_entry_to_path (str "..") (str "/a/b") = Except.ok (str "..") ∧
    normpath (pyJoin (str "/a/b") (str "..")) = str "/a" ∧
    make_relpath (str "/a/b/c") (str "/a/b") = Except.ok (str "c") ∧
    make_relpath (str "/a/x/c") (str "/a/b") =
      Except.error "error, path leads outside given directory" := by
  decide

/-- C7: `modify_logfile` on a single-record log with both drop flags set does
not terminate normally: `del entries[-1]` is reached with an already emptied
list and raises an uncaught IndexError (modelled as `none`), while the empty
log is a no-op and a two-record log works. -/
theorem modify_single_record_both_flags :
    modify_logfile [str "a"] true true = none ∧
    modify_logfile [] true true = some [] ∧
    modify_logfile [str "a", str "b"] true true = some [] := by
  decide

/-- C6 counterexample: with requested round count 0 the loop performs one
round, not zero, because the break test runs only after the round. -/
theorem round_count_zero_counterexample :
    choose_next_loop 5 0 0 = some 1 ∧ choose_next_loop 5 0 0 ≠ some 0 := by
  decide

/-- C6 (amended): for every positive round count `n` the loop performs
exactly `n` rounds and stops; for a negative count it never stops; for the
count 0 it performs one round (the loop body runs before the test). -/
theorem round_count_behaviour (n : Int) (fuel : Nat) :
    (1 ≤ n → n.toNat ≤ fuel → choose_next_loop fuel n 0 = some n.toNat) ∧
    (n < 0 → choose_next_loop fuel n 0 = none) ∧
    (n = 0 → 1 ≤ fuel → choose_next_loop fuel n 0 = some 1) := by
  refine ⟨fun h1 h2 => ?_, fun h => choose_next_loop_neg fuel n 0 h, fun h0 hf => ?_⟩
  · exact choose_next_loop_pos fuel n 0 (by omega) (by omega) (by push_cast; omega)
  · subst h0
    cases fuel with
    | zero => omega
    | succ f => rfl

/-- Witness for `round_count_behaviour` at counts 2, -1 and 0. -/
theorem round_count_behaviour_witness :
    choose_next_loop 5 2 0 = some 2 ∧ choose_next_loop 3 (-1) 0 = none ∧
    choose_next_loop 4 0 0 = some 1 :=
  ⟨(round_count_behaviour 2 5).1 (by decide) (by decide),
   (round_count_behaviour (-1) 3).2.1 (by decide),
   (round_count_behaviour 0 4).2.2 (by decide) (by decide)⟩

/-- C9: a requested round count between 0 and the number of explicit file
arguments is silently raised to that number, and the loop then performs one
round per explicit file. -/
theorem explicit_files_inflate_round_count (n : Int) (nfiles fuel : Nat)
    (h0 : 0 ≤ n) (hle : n ≤ (nfiles : Int)) :
    effective_number n nfiles = (nfiles : Int) ∧
    (1 ≤ nfiles → nfiles ≤ fuel →
      choose_next_loop fuel (effective_number n nfiles) 0 = some nfiles) := by
  have he : effective_number n nfiles = (nfiles : Int) := if_pos ⟨h0, hle⟩
  refine ⟨he, fun h1 hf => ?_⟩
  rw [he]
  have h := choose_next_loop_pos fuel (nfiles : Int) 0 (by omega) (by push_cast; omega)
    (by push_cast; omega)
  simpa using h

/-- Witness for `explicit_files_inflate_round_count`: a request of 1 round
with 3 explicit files runs 3 rounds. -/
theorem explicit_files_inflate_round_count_witness :
    choose_next_loop 5 (effective_number 1 3) 0 = some 3 ∧
    effective_number 1 3 = ((3 : Nat) : Int) :=
  ⟨(explicit_files_inflate_round_count 1 3 5 (by decide) (by decide)).2
      (by decide) (by decide),
   (explicit_files_inflate_round_count 1 3 5 (by decide) (by decide)).1⟩

/-- C5: the path key is the list of per-segment `(numeric value, collated
remainder)` pairs, `(0, collated full segment)` for a segment without a
numeric prefix; in particular `2/3 e`, `2/20 e`, `10/5 e` sort in exactly
that order, and three sequential rounds starting from an empty log select
them in exactly that order. -/
theorem numeric_sort_order :
    numkey_path (str "2/3 e") = [⟨⟨2, 0⟩, []⟩, ⟨⟨3, 0⟩, str "e"⟩] ∧
    numkey_path (str "2/20 e") = [⟨⟨2, 0⟩, []⟩, ⟨⟨20, 0⟩, str "e"⟩] ∧
    numkey_path (str "10/5 e") = [⟨⟨10, 0⟩, []⟩, ⟨⟨5, 0⟩, str "e"⟩] ∧
    numkey_path (str "abc") = [⟨⟨0, 0⟩, str "abc"⟩] ∧
    pathSort [str "10/5 e", str "2/20 e", str "2/3 e"] =
      [str "2/3 e", str "2/20 e", str "10/5 e"] ∧
    (do
      let r1 ← choose_next_round (str "") (str "/d")
        [str "10/5 e", str "2/20 e", str "2/3 e"] false false false false false
        (fun _ => []) none
      let r2 ← choose_next_round r1.2.2 (str "/d")
        [str "10/5 e", str "2/20 e", str "2/3 e"] false false false false false
        (fun _ => []) none
      let r3 ← choose_next_round r2.2.2 (str "/d")
        [str "10/5 e", str "2/20 e", str "2/3 e"] false false false false false
        (fun _ => []) none
      Except.ok (r1.1, r2.1, r3.1) :
        Except String (Path × Path × Path)) =
      Except.ok (str "2/3 e", str "2/20 e", str "10/5 e") := by
  decide

theorem write_logfile_singleton (e : Path) : write_logfile [e] = e ++ ['\n'] := by
  simp [write_logfile]

theorem choose_next_round_eq (content dirpath : Path) (available : List Path)
    (no_read last_flag random_flag no_write prepend : Bool)
    (randomPick : List Path → Path) (next_file0 : Option Path)
    (logList : List Path) (hread : read_logfile content dirpath = Except.ok logList) :
    choose_next_round content dirpath available no_read last_flag random_flag no_write
        prepend randomPick next_file0 =
      (choose_next_file_select logList available no_read last_flag random_flag randomPick
          next_file0).map
        (fun sel => (sel.1, sel.2,
          choose_next_file_write logList content sel.1 sel.2 no_write prepend)) := by
  unfold choose_next_round
  rw [hread]
  cases hsel : choose_next_file_select logList available no_read last_flag random_flag
    randomPick next_file0 <;>
    simp [hsel, Except.map, Bind.bind, Except.bind, Pure.pure, Except.pure]

theorem select_ok_wrap_eq (logList available : List Path)
    (no_read last_flag random_flag : Bool) (randomPick : List Path → Path)
    (next_file0 : Option Path) (c : Path) (w : Bool)
    (h : choose_next_file_select logList available no_read last_flag random_flag randomPick
      next_file0 = Except.ok (c, w)) :
    w = ((available.dedup).filter
      (fun p => !((played_list logList no_read).contains p))).isEmpty := by
  simp only [choose_next_file_select] at h
  repeat any_goals split at h
  all_goals simp_all

theorem select_no_read_no_wrap (logList available : List Path)
    (last_flag random_flag : Bool) (randomPick : List Path → Path)
    (next_file0 : Option Path) (c : Path) (w : Bool)
    (h : choose_next_file_select logList available true last_flag random_flag randomPick
      next_file0 = Except.ok (c, w)) :
    w = false := by
  have hw := select_ok_wrap_eq logList available true last_flag random_flag randomPick
    next_file0 c w h
  simp only [played_list, if_pos] at hw
  simp only [List.contains, List.elem_nil, Bool.not_false, List.filter_true] at hw
  by_contra hne
  have hw' : w = true := by cases w <;> simp_all
  rw [hw'] at hw
  have hnil : available.dedup = [] := List.isEmpty_iff.mp hw.symm
  simp only [choose_next_file_select, played_list, if_pos, hnil] at h
  simp at h

theorem select_ok_mem_of_not_random (logList available : List Path) (no_read : Bool)
    (randomPick : List Path → Path) (c : Path) (w : Bool)
    (h : choose_next_file_select logList available no_read false false randomPick none =
      Except.ok (c, w)) :
    c ∈ available := by
  simp only [choose_next_file_select] at h
  repeat any_goals split at h
  all_goals try (exfalso; simp_all; done)
  all_goals
    rename_i hfind
    have hp := List.find?_some hfind
    simp only [Except.ok.injEq, Prod.mk.injEq] at h
    rw [← h.1]
    simp_all [List.contains, List.elem_iff]

theorem write_unchanged_of_mem_no_wrap (logList : List Path) (content next_file : Path)
    (no_write prepend : Bool) (hmem : next_file ∈ logList) :
    choose_next_file_write logList content next_file false no_write prepend = content := by
  cases no_write <;> simp [choose_next_file_write, hmem]

/-- C4: in a round with writing enabled, selecting an entry already present
in the pre-round log without a wrap leaves the persisted raw log content
unchanged; contrapositively, the log is rewritten only when the entry was
absent or a wrap occurred. -/
theorem no_duplicate_record_without_wrap
    (content dirpath : Path) (available : List Path)
    (no_read last_flag random_flag prepend : Bool)
    (randomPick : List Path → Path) (next_file0 : Option Path)
    (logList : List Path) (c : Path) (w : Bool) (newC : Path)
    (hread : read_logfile content dirpath = Except.ok logList)
    (hrun : choose_next_round content dirpath available no_read last_flag random_flag
      false prepend randomPick next_file0 = Except.ok (c, w, newC))
    (hmem : c ∈ logList) (hw : w = false) :
    newC = content := by
  rw [choose_next_round_eq content dirpath available no_read last_flag random_flag false
    prepend randomPick next_file0 logList hread] at hrun
  cases hsel : choose_next_file_select logList available no_read last_flag random_flag
    randomPick next_file0 with
  | error e => rw [hsel] at hrun; simp [Except.map] at hrun
  | ok sel =>
    rw [hsel] at hrun
    simp only [Except.map, Except.ok.injEq, Prod.mk.injEq] at hrun
    obtain ⟨h1, h2, h3⟩ := hrun
    rw [← h3, h2, hw, h1]
    exact write_unchanged_of_mem_no_wrap logList content c false prepend hmem

/-- Witness for `no_duplicate_record_without_wrap`: with log `a`, candidates
`a` and `b`, and explicit file `a`, the round selects `a` without a wrap and
the persisted content stays `a\n`. -/
theorem no_duplicate_record_without_wrap_witness :
    str "a\n" = str "a\n" :=
  no_duplicate_record_without_wrap (str "a\n") (str "/d") [str "a", str "b"]
    false false false false (fun _ => []) (some (str "a"))
    [str "a"] (str "a") false (str "a\n")
    (by decide) (by decide) (by decide) rfl

/-- C10: with history reading disabled the on-disk log is still read and
still suppresses duplicates: a successful round whose selected entry occurs
anywhere in the parsed log leaves the raw log content unchanged (no wrap can
occur on a successful no-read round). -/
theorem no_read_still_suppresses_duplicates
    (content dirpath : Path) (available : List Path)
    (last_flag random_flag prepend : Bool)
    (randomPick : List Path → Path) (next_file0 : Option Path)
    (logList : List Path) (c : Path) (w : Bool) (newC : Path)
    (hread : read_logfile content dirpath = Except.ok logList)
    (hrun : choose_next_round content dirpath available true last_flag random_flag
      false prepend randomPick next_file0 = Except.ok (c, w, newC))
    (hmem : c ∈ logList) :
    newC = content := by
  rw [choose_next_round_eq content dirpath available true last_flag random_flag false
    prepend randomPick next_file0 logList hread] at hrun
  cases hsel : choose_next_file_select logList available true last_flag random_flag
    randomPick next_file0 with
  | error e => rw [hsel] at hrun; simp [Except.map] at hrun
  | ok sel =>
    have hw := select_no_read_no_wrap logList available last_flag random_flag randomPick
      next_file0 sel.1 sel.2 (by rw [hsel])
    rw [hsel] at hrun
    simp only [Except.map, Except.ok.injEq, Prod.mk.injEq] at hrun
    obtain ⟨h1, h2, h3⟩ := hrun
    rw [← h3, hw, h1]
    exact write_unchanged_of_mem_no_wrap logList content c false prepend hmem

/-- Witness for `no_read_still_suppresses_duplicates`: log `a`, candidates
`a` and `b`, no-read mode; the round selects `a` (the played set is empty)
but the on-disk log already contains `a`, so the content stays `a\n`. -/
theorem no_read_still_suppresses_duplicates_witness :
    str "a\n" = str "a\n" :=
  no_read_still_suppresses_duplicates (str "a\n") (str "/d") [str "a", str "b"]
    false false false (fun _ => []) none
    [str "a"] (str "a") false (str "a\n")
    (by decide) (by decide) (by decide)

/-- C2: when the history covers the whole non-empty candidate set and both
reading and writing are enabled, the sequential round wraps: the wrap flag
is set, the full candidate set is treated as remaining again (the chosen
entry comes from it although everything was played), and the persisted log
afterwards holds exactly the one new entry, not the stale history plus the
new entry. -/
theorem wrap_restarts_and_truncates
    (content dirpath : Path) (available : List Path) (prepend : Bool)
    (randomPick : List Path → Path)
    (logList : List Path) (c : Path) (w : Bool) (newC : Path)
    (hread : read_logfile content dirpath = Except.ok logList)
    (_hne : available ≠ [])
    (hcov : ∀ p ∈ available, p ∈ logList)
    (hrun : choose_next_round content dirpath available false false false false prepend
      randomPick none = Except.ok (c, w, newC)) :
    w = true ∧ c ∈ available ∧ newC = write_logfile [c] := by
  have hfil : (available.dedup).filter
      (fun p => !((played_list logList false).contains p)) = [] := by
    refine List.filter_eq_nil_iff.mpr (fun a ha => ?_)
    have : a ∈ logList := hcov a (List.mem_dedup.mp ha)
    simp [played_list, List.contains, List.elem_iff, this]
  rw [choose_next_round_eq content dirpath available false false false false
    prepend randomPick none logList hread] at hrun
  cases hsel : choose_next_file_select logList available false false false
    randomPick none with
  | error e => rw [hsel] at hrun; simp [Except.map] at hrun
  | ok sel =>
    have hw : sel.2 = true := by
      have h := select_ok_wrap_eq logList available false false false randomPick none
        sel.1 sel.2 (by rw [hsel])
      rw [hfil] at h
      simpa using h
    have hmem1 : sel.1 ∈ available :=
      select_ok_mem_of_not_random logList available false randomPick sel.1 sel.2
        (by rw [hsel])
    rw [hsel] at hrun
    simp only [Except.map, Except.ok.injEq, Prod.mk.injEq] at hrun
    obtain ⟨h1, h2, h3⟩ := hrun
    refine ⟨by rw [← h2, hw], by rw [← h1]; exact hmem1, ?_⟩
    rw [← h3, ← h1, hw]
    cases prepend <;>
      simp [choose_next_file_write, logfile_prepend, logfile_append, write_logfile]

/-- Witness for `wrap_restarts_and_truncates`: log `a b`, candidates `a` and
`b`; the round wraps, selects `a` again, and the persisted content is `a\n`
alone. -/
theorem wrap_restarts_and_truncates_witness :
    true = true ∧ str "a" ∈ [str "a", str "b"] ∧
      write_logfile [str "a"] = write_logfile [str "a"] :=
  wrap_restarts_and_truncates (str "a\nb\n") (str "/d") [str "a", str "b"] false
    (fun _ => []) [str "a", str "b"] (str "a") true (str "a\n")
    (by decide) (by decide) (by decide) (by decide)

theorem translateNewlines_eq_self (s : Path) (h : '\r' ∉ s) : translateNewlines s = s := by
  induction s with
  | nil => rfl
  | cons c rest ih =>
    have hc : c ≠ '\r' := fun hx => h (hx ▸ List.mem_cons_self c rest)
    have hrest : '\r' ∉ rest := fun hx => h (List.mem_cons_of_mem c hx)
    cases rest with
    | nil => simp [translateNewlines, hc]
    | cons d rest2 =>
      simp only [translateNewlines, hc, if_false, ite_false]
      rw [ih hrest]

theorem splitLinesAux_append (e : Path) : ∀ (cur t : Path), '\n' ∉ e →
    splitLinesAux cur (e ++ '\n' :: t) =
      ((cur.reverse ++ e) ++ ['\n']) :: splitLinesAux [] t := by
  induction e with
  | nil =>
    intro cur t _
    simp [splitLinesAux]
  | cons c e' ih =>
    intro cur t h
    have hc : c ≠ '\n' := fun hx => h (hx ▸ List.mem_cons_self c e')
    have he' : '\n' ∉ e' := fun hx => h (List.mem_cons_of_mem c hx)
    calc splitLinesAux cur ((c :: e') ++ '\n' :: t)
        = splitLinesAux (c :: cur) (e' ++ '\n' :: t) := by
          show splitLinesAux cur (c :: (e' ++ '\n' :: t)) = _
          simp only [splitLinesAux]
          rw [if_neg hc]
      _ = (((c :: cur).reverse ++ e') ++ ['\n']) :: splitLinesAux [] t := ih (c :: cur) t he'
      _ = ((cur.reverse ++ (c :: e')) ++ ['\n']) :: splitLinesAux [] t := by simp

theorem rstripCRLF_append_newline (e : Path) (hr : '\r' ∉ e) (hn : '\n' ∉ e) :
    rstripCRLF (e ++ ['\n']) = e := by
  unfold rstripCRLF
  rw [List.reverse_append]
  simp only [List.reverse_cons, List.reverse_nil, List.nil_append, List.singleton_append]
  rw [List.dropWhile_cons]
  simp only [show (('\n' == '\r') || ('\n' == '\n')) = true from rfl, if_true, ite_true]
  cases he : e.reverse with
  | nil =>
    have : e = [] := by simpa using congrArg List.reverse he
    simp [this]
  | cons a as =>
    have ha : a ∈ e := by
      have : a ∈ e.reverse := he ▸ List.mem_cons_self a as
      simpa using this
    have hpa : ((a == '\r') || (a == '\n')) = false := by
      have h1 : a ≠ '\r' := fun hx => hr (hx ▸ ha)
      have h2 : a ≠ '\n' := fun hx => hn (hx ▸ ha)
      simp [h1, h2]
    rw [List.dropWhile_cons, hpa]
    simp only [Bool.false_eq_true, if_false, ite_false]
    rw [← he, List.reverse_reverse]

theorem write_logfile_cons (e : Path) (rest : List Path) :
    write_logfile (e :: rest) = e ++ '\n' :: write_logfile rest := by
  simp [write_logfile]

theorem cr_not_mem_write_logfile (l : List Path) (h : ∀ e ∈ l, '\r' ∉ e) :
    '\r' ∉ write_logfile l := by
  induction l with
  | nil => simp [write_logfile]
  | cons e rest ih =>
    rw [write_logfile_cons]
    intro hx
    rcases List.mem_append.mp hx with h1 | h2
    · exact h e (List.mem_cons_self e rest) h1
    · rcases List.mem_cons.mp h2 with h3 | h4
      · exact absurd h3 (by decide)
      · exact ih (fun x hmx => h x (List.mem_cons_of_mem e hmx)) h4

/-- C8 counterexample: the entry `a\r` is relative, lies inside the root and
contains no record delimiter (`\n`), yet the round trip corrupts it: text
mode reads `a\r\n` as the single line `a`, so reading back yields `a`. -/
theorem log_round_trip_counterexample :
    read_logfile (write_logfile [str "a\r"]) (str "/d") = Except.ok [str "a"] ∧
    ¬read_logfile (write_logfile [str "a\r"]) (str "/d") = Except.ok [str "a\r"] := by
  decide

/-- C8 (amended): writing an ordered sequence of entries and reading it back
against the same root restores exactly that sequence, provided each entry
contains neither a newline nor a carriage return and is a fixed point of the
logfile entry normalization (its own relative form inside the root). -/
theorem log_round_trip (entries : List Path) (root : Path)
    (h : ∀ e ∈ entries, '\n' ∉ e ∧ '\r' ∉ e ∧ logfile_entry_to_path e root = Except.ok e) :
    read_logfile (write_logfile entries) root = Except.ok entries := by
  induction entries with
  | nil => rfl
  | cons e rest ih =>
    obtain ⟨hn, hr, hfix⟩ := h e (List.mem_cons_self e rest)
    have hrest : ∀ x ∈ rest, '\n' ∉ x ∧ '\r' ∉ x ∧
        logfile_entry_to_path x root = Except.ok x :=
      fun x hx => h x (List.mem_cons_of_mem e hx)
    have hnocr : '\r' ∉ write_logfile (e :: rest) :=
      cr_not_mem_write_logfile (e :: rest)
        (fun x hx => (h x hx).2.1)
    have hnocr' : '\r' ∉ write_logfile rest :=
      cr_not_mem_write_logfile rest (fun x hx => (hrest x hx).2.1)
    unfold read_logfile
    rw [translateNewlines_eq_self _ hnocr, write_logfile_cons]
    unfold splitLines
    rw [splitLinesAux_append e [] (write_logfile rest) hn]
    simp only [List.reverse_nil, List.nil_append]
    unfold entriesFromLines
    rw [rstripCRLF_append_newline e hr hn, hfix]
    have ihr : entriesFromLines root (splitLinesAux [] (write_logfile rest)) =
        Except.ok rest := by
      have := ih hrest
      unfold read_logfile at this
      rw [translateNewlines_eq_self _ hnocr'] at this
      exact this
    unfold splitLines at ihr
    rw [ihr]
    rfl

/-- Witness for `log_round_trip`: the entries `a` and `b/c` under root `/d`
round-trip exactly. -/
theorem log_round_trip_witness :
    read_logfile (write_logfile [str "a", str "b/c"]) (str "/d") =
      Except.ok [str "a", str "b/c"] :=
  log_round_trip [str "a", str "b/c"] (str "/d") (by decide)

theorem findSome?_congr {α β : Type} (f g : α → Option β) :
    ∀ (l : List α), (∀ a ∈ l, f a = g a) → l.findSome? f = l.findSome? g := by
  intro l
  induction l with
  | nil => intro _; rfl
  | cons a as ih =>
    intro h
    rw [List.findSome?_cons, List.findSome?_cons, h a (List.mem_cons_self a as)]
    cases g a with
    | none => exact ih (fun x hx => h x (List.mem_cons_of_mem a hx))
    | some b => rfl

theorem find?_eq_range_findSome? {α : Type} (xs : List α) (p : α → Bool) :
    xs.find? p = (List.range xs.length).findSome?
      (fun j => (xs.get? j).bind (fun a => if p a then some a else none)) := by
  induction xs with
  | nil => rfl
  | cons a as ih =>
    rw [List.length_cons, List.range_succ_eq_map, List.findSome?_cons]
    cases hpa : p a with
    | true =>
      rw [List.find?_cons_of_pos _ hpa]
      simp [hpa]
    | false =>
      rw [List.find?_cons_of_neg _ (by simp [hpa])]
      simp only [List.get?_cons_zero, Option.bind, hpa, Bool.false_eq_true, if_false,
        ite_false, List.findSome?_map, Function.comp, List.get?_cons_succ]
      exact ih

theorem rotate_find?_eq_scan (l : List Path) (k : Nat) (p : Path → Bool) :
    (l.rotate k).find? p = (List.range l.length).findSome?
      (fun j => (l.get? ((k + j) % l.length)).bind
        (fun a => if p a then some a else none)) := by
  rw [find?_eq_range_findSome?, List.length_rotate]
  refine findSome?_congr _ _ (List.range l.length) (fun j hj => ?_)
  have hjl : j < l.length := List.mem_range.mp hj
  rw [List.get?_rotate hjl, Nat.add_comm j k]

theorem insertByKey_perm (a : Path) (l : List Path) : (insertByKey a l).Perm (a :: l) := by
  induction l with
  | nil => exact List.Perm.refl _
  | cons b bs ih =>
    unfold insertByKey
    split
    · exact List.Perm.refl _
    · exact List.Perm.trans (List.Perm.cons b ih) (List.Perm.swap a b bs)

theorem pathSort_perm (l : List Path) : (pathSort l).Perm l := by
  induction l with
  | nil => exact List.Perm.refl _
  | cons a as ih =>
    exact List.Perm.trans (insertByKey_perm a (as.foldr insertByKey []))
      (List.Perm.cons a ih)

theorem mem_pathSort {a : Path} {l : List Path} : a ∈ pathSort l ↔ a ∈ l :=
  (pathSort_perm l).mem_iff

theorem contains_pathSort (l : List Path) (a : Path) :
    (pathSort l).contains a = l.contains a := by
  by_cases h : a ∈ l <;> simp [List.contains, List.elem_iff, mem_pathSort, h]

theorem seqIndex_eq_specStart (playedL avail : List Path) :
    seqIndex playedL avail (pathSort avail) = specStart (pathSort avail) playedL := by
  unfold seqIndex specStart
  cases playedL.getLast? with
  | none => rfl
  | some lf => simp only [contains_pathSort]

theorem select_seq_ok_find (logList available : List Path)
    (no_read last_flag random_flag : Bool)
    (randomPick : List Path → Path) (c : Path) (w : Bool)
    (hmode : ¬(last_flag = true ∧ played_list logList no_read ≠ []))
    (hrand : random_flag = false)
    (h : choose_next_file_select logList available no_read last_flag random_flag randomPick
      none = Except.ok (c, w)) :
    ((pathSort available.dedup).rotate
        (seqIndex (played_list logList no_read) available.dedup
          (pathSort available.dedup))).find?
      (fun p => (specRemaining available.dedup (played_list logList no_read)).contains p) =
      some c := by
  subst hrand
  simp only [choose_next_file_select] at h
  repeat any_goals split at h
  all_goals try (exfalso; simp_all [List.isEmpty_eq_false]; done)
  all_goals
    rename_i hfind
    simp only [Except.ok.injEq, Prod.mk.injEq] at h
    obtain ⟨h1, _h2⟩ := h
    subst h1
    simp only [specRemaining]
    first
      | (rw [if_pos (by assumption)]; exact hfind)
      | (rw [if_neg (by assumption)]; exact hfind)

/-- C1: in sequential mode (no explicit file for the round, mode neither
repeat-last with nonempty history nor random), the entry chosen by
`choose_next_file` equals the one prescribed by the spec: sort the
candidates by the numeric-aware path key, start just after the last history
entry in that order (0 when the history is empty or its last entry left the
candidate set), scan forward cyclically and return the first member of the
remaining set. -/
theorem sequential_selection_refines_spec
    (logList available : List Path) (no_read last_flag random_flag : Bool)
    (randomPick : List Path → Path) (c : Path) (w : Bool)
    (hmode : ¬(last_flag = true ∧ played_list logList no_read ≠ []))
    (hrand : random_flag = false)
    (h : choose_next_file_select logList available no_read last_flag random_flag randomPick
      none = Except.ok (c, w)) :
    specSequentialChoice available (played_list logList no_read) = some c := by
  have hfind := select_seq_ok_find logList available no_read last_flag random_flag
    randomPick c w hmode hrand h
  simp only [specSequentialChoice]
  rw [← rotate_find?_eq_scan (pathSort available.dedup)
    (specStart (pathSort available.dedup) (played_list logList no_read))
    (fun p => (specRemaining available.dedup (played_list logList no_read)).contains p)]
  rw [← seqIndex_eq_specStart (played_list logList no_read) available.dedup]
  exact hfind

/-- Witness for `sequential_selection_refines_spec`: log `a`, candidates `b`
and `a`; the code picks `b` and the spec-side scan agrees. -/
theorem sequential_selection_refines_spec_witness :
    specSequentialChoice [str "b", str "a"] (played_list [str "a"] false) =
      some (str "b") :=
  sequential_selection_refines_spec [str "a"] [str "b", str "a"] false false false
    (fun _ => []) (str "b") false (by decide) (by decide) (by decide)

end ChooseNext
